import Mathlib

/-!
Verification of `folly/Bits.h` (bit-manipulation primitives): a shallow
embedding of the scalar bit-scan functions, `nextPowTwo`, the `Endian`
facility, `BitIterator`, and the ranged `findFirstSet`, together with
theorems settling the specification's claims about them.

Machine integers are modelled as `Nat` bit patterns (with explicit
`% 2 ^ w` where C truncation occurs) and as `Int` values for signed
types; the two views are connected by `toPattern` / `toSigned`.
-/

set_option maxHeartbeats 1000000
set_option maxRecDepth 100000

namespace Folly

/-! ## Definitions (embedded from folly/Bits.h) -/

/-- glibc `ffs` / `ffsl` / `ffsll`, modelled on the argument's
two's-complement bit pattern (as a natural number): the 1-based index of
the least significant set bit, or 0 when the pattern is 0. -/
def ffs (x : Nat) : Nat :=
  if h : x = 0 then 0
  else if x % 2 = 1 then 1
  else ffs (x / 2) + 1
termination_by x
decreasing_by exact Nat.div_lt_self (Nat.pos_of_ne_zero h) (by omega)

/-- Two's-complement value of a `w`-bit pattern (the C
`static_cast<signed>` of an unsigned value, implementation-defined but
two's complement on the supported platforms). -/
def toSigned (w : Nat) (p : Nat) : Int :=
  if p < 2 ^ (w - 1) then (p : Int) else (p : Int) - 2 ^ w

/-- `w`-bit two's-complement pattern of an integer value (the C
conversion of a signed value to the unsigned type of width `w`). -/
def toPattern (w : Nat) (x : Int) : Nat := (x % (2 ^ w : Int)).toNat

/-- `folly::findFirstSet` for a signed integral type of width `w`
(`w ∈ {8,16,32,64}`): the argument is converted (`static_cast`,
sign-extending) to the narrowest of `int` / `long` / `long long` whose
width covers `w`, and the corresponding glibc `ffs` variant is applied
to that pattern. -/
def findFirstSetS (w : Nat) (x : Int) : Nat :=
  if w ≤ 32 then ffs (toPattern 32 x) else ffs (toPattern 64 x)

/-- `folly::findFirstSet` for an unsigned integral type of width `w`:
forwards to the overload for the corresponding signed type by
reinterpreting the bit pattern. -/
def findFirstSetU (w : Nat) (x : Nat) : Nat :=
  findFirstSetS w (toSigned w x)

/-- GCC `__builtin_clz` / `__builtin_clzl` / `__builtin_clzll`, modelled
as the number of leading zero bits of the `W`-bit pattern of a nonzero
argument (the intrinsics are undefined at 0, and every caller in the
source guards that case). -/
def clz (W x : Nat) : Nat := W - (Nat.log2 x + 1)

/-- `folly::findLastSet` for an unsigned integral type of width `w`:
0 for 0, otherwise `8*sizeof(word) - clz(x)` where `word` is the
narrowest of `unsigned int` (32 bits) / `unsigned long` (64 bits) whose
width covers `w`. -/
def findLastSetU (w x : Nat) : Nat :=
  if x = 0 then 0
  else if w ≤ 32 then 32 - clz 32 x else 64 - clz 64 x

/-- `folly::findLastSet` for a signed integral type of width `w`:
forwards to the unsigned overload on the same-width bit pattern
(`static_cast` to the corresponding unsigned type). -/
def findLastSetS (w : Nat) (x : Int) : Nat := findLastSetU w (toPattern w x)

/-- `detail::findLastSetPortable`'s loop `while (x >>= 1) ++r;`:
the shift-assignment is evaluated, then tested; each iteration that
leaves `x` nonzero increments `r`. -/
def flsPortableLoop (x r : Nat) : Nat :=
  if x / 2 = 0 then r else flsPortableLoop (x / 2) (r + 1)
termination_by x
decreasing_by exact Nat.div_lt_self (by omega) (by omega)

/-- `detail::findLastSetPortable`: `r` starts as `(x != 0)`, then the
repeated-right-shift loop runs. -/
def findLastSetPortable (x : Nat) : Nat :=
  flsPortableLoop x (if x = 0 then 0 else 1)

/-- One `v |= (v >> s)` step of the portable bit-smearing loop. -/
def smearStep (s x : Nat) : Nat := x ||| (x >>> s)

/-- The body of `detail::nextPowTwoPortable`'s loop for every supported
width (8–64 bits): since the loop counter multiplies by 256 each round,
the loop runs exactly once, with `i = 1`, applying `v |= v >> s` for
`s = 1, 2, 4, 8, 16, 32, 64, 128` in order. -/
def smear (x : Nat) : Nat :=
  smearStep 128 (smearStep 64 (smearStep 32 (smearStep 16
    (smearStep 8 (smearStep 4 (smearStep 2 (smearStep 1 x)))))))

/-- `detail::nextPowTwoPortable` for width `w`: 1 for 0, otherwise smear
`v - 1` and add 1; the result is a value of the `w`-bit type. -/
def nextPowTwoPortable (w v : Nat) : Nat :=
  if v = 0 then 1 else (smear (v - 1) + 1) % 2 ^ w

/-- `folly::nextPowTwo` (the `__GNUC__` fast path) for width `w`: 1 for
0, otherwise `1ul << findLastSet(v - 1)` — the shift is performed in
`unsigned long` (64 bits) and the result converted to the `w`-bit
return type. For shift counts below 64 this is exact; at width 64 with
`v > 2^63` the shift count reaches 64, where the C shift is undefined
behavior — the `% 2 ^ 64` here is only a total-function placeholder, and
`nextPowTwoFast` makes that definedness boundary explicit. -/
def nextPowTwo (w v : Nat) : Nat :=
  if v = 0 then 1 else ((1 <<< findLastSetU w (v - 1)) % 2 ^ 64) % 2 ^ w

/-- The `__GNUC__` fast path of `nextPowTwo` with the C shift's
definedness made explicit: `1ul << s` is defined only for shift counts
`s < 64` (shifting an `unsigned long` by its full bit width is
undefined behavior), so the fast path yields no value when
`findLastSet(v - 1)` reaches 64; where defined it computes the same
expression as `nextPowTwo`. -/
def nextPowTwoFast (w v : Nat) : Option Nat :=
  if v = 0 then some 1
  else if findLastSetU w (v - 1) < 64 then
    some (((1 <<< findLastSetU w (v - 1)) % 2 ^ 64) % 2 ^ w)
  else none

/-- Byte reversal of an `n`-byte value: models the `bswap_16` /
`bswap_32` / `bswap_64` primitives from `<byteswap.h>` (lowest byte of
the input becomes highest byte of the output, and so on). -/
def byteReverse : Nat → Nat → Nat
  | 0, _ => 0
  | n + 1, x => x % 256 * 2 ^ (8 * n) + byteReverse n (x / 256)

namespace Endian

/-- `folly::Endian::swap` (via `detail::EndianIntBase<T>::swap`): the
identity for the 8-bit types, `bswap_16/32/64` (byte reversal over
`w / 8` bytes) for the wider widths. -/
def swap (w x : Nat) : Nat :=
  if w = 8 then x else byteReverse (w / 8) x

/-- `folly::Endian::big` with the host byte order made explicit: the
`#if __BYTE_ORDER == __LITTLE_ENDIAN` branch of `detail::EndianInt`
swaps, the big-endian branch is the identity. -/
def big (isLittle : Bool) (w x : Nat) : Nat :=
  if isLittle then swap w x else x

/-- `folly::Endian::little`, dually: identity on a little-endian host,
swap on a big-endian host. -/
def little (isLittle : Bool) (w x : Nat) : Nat :=
  if isLittle then x else swap w x

end Endian

/-- `Endian::swap` on a signed type of width `w`: the primitive operates
on the two's-complement bit pattern and the result is reinterpreted. -/
def swapS (w : Nat) (x : Int) : Int :=
  toSigned w (Endian.swap w (toPattern w x))

/-- `folly::BitIterator`: the base iterator (modelled as an unbounded
block index, since random-access iterator arithmetic itself is exact)
together with the `ssize_t bitOffset_` field. The block width
`bitsPerBlock()` is passed explicitly as `w`. -/
structure BitIterator where
  base : Int
  bitOffset : Int
  deriving DecidableEq

/-- `BitIterator::increment`: `if (++bitOffset_ == bitsPerBlock())
advanceToNextBlock();`. -/
def increment (w : Nat) (it : BitIterator) : BitIterator :=
  if it.bitOffset + 1 = (w : Int) then ⟨it.base + 1, 0⟩
  else ⟨it.base, it.bitOffset + 1⟩

/-- `BitIterator::decrement`: `if (bitOffset_-- == 0) { bitOffset_ =
bitsPerBlock() - 1; --base; }`. -/
def decrement (w : Nat) (it : BitIterator) : BitIterator :=
  if it.bitOffset = 0 then ⟨it.base - 1, (w : Int) - 1⟩
  else ⟨it.base, it.bitOffset - 1⟩

/-- `BitIterator::advanceToNextBlock`. -/
def advanceToNextBlock (it : BitIterator) : BitIterator :=
  ⟨it.base + 1, 0⟩

/-- The C conversion of an `ssize_t` value to 64-bit `size_t` (the usual
arithmetic conversion applied when the two types are mixed). -/
def toUnsigned64 (x : Int) : Nat := (x % (2 ^ 64 : Int)).toNat

/-- `BitIterator::advance(ssize_t n)`. In `n / bpb` and `n % bpb` the
`ssize_t` operand `n` is converted to `size_t` (so the division and
remainder are unsigned), the quotient is converted back to
`ssize_t blocks` (two's complement wrap, as on the supported
compilers), and the comparison `bitOffset_ >= bpb` is again unsigned.
The code increments `blocks` before `base_reference() += blocks`;
offset arithmetic stays in the exact range of `ssize_t` here. -/
def advance (w : Nat) (n : Int) (it : BitIterator) : BitIterator :=
  let nU : Nat := toUnsigned64 n
  let blocks : Int := toSigned 64 (nU / w)
  let off : Int := it.bitOffset + (nU % w : Nat)
  if w ≤ toUnsigned64 off then ⟨it.base + (blocks + 1), off - (w : Int)⟩
  else ⟨it.base + blocks, off⟩

/-- The bit of the block sequence at global bit position `p` (block
`p / w`, offset `p % w`). -/
def bitAt (w : Nat) (blocks : List Nat) (p : Nat) : Bool :=
  (blocks.getD (p / w) 0).testBit (p % w)

/-- The loop of the ranged `folly::findFirstSet(begin, end)`, with the
`while (begin.base() != end.base())` loop driven by the number of whole
blocks between `begin` and `end` (their block-index difference, for a
valid ordered range). Iterators are (block index, bit offset) pairs.
`v &= ~((one << off) - 1)` in the `w`-bit block type is the mask
`2 ^ w - 2 ^ off`; `v &= (one << endOff) - 1` is `2 ^ endOff - 1`.
After `--firstSet`, `advanceInBlock(firstSet - bitOffset)` adds
`firstSet - bitOffset` (nonnegative, by the masking) to the offset. -/
def findFirstSetRangeGo (w : Nat) (blocks : List Nat) (eIdx eOff : Nat) :
    Nat → Nat → Nat → Nat × Nat
  | 0, bIdx, bOff =>
    if eOff ≠ 0 then
      let v := blocks.getD bIdx 0 &&& (2 ^ w - 2 ^ bOff) &&& (2 ^ eOff - 1)
      let firstSet := findFirstSetU w v
      if firstSet ≠ 0 then (bIdx, bOff + (firstSet - 1 - bOff))
      else (eIdx, eOff)
    else (eIdx, eOff)
  | k + 1, bIdx, bOff =>
    let v := blocks.getD bIdx 0 &&& (2 ^ w - 2 ^ bOff)
    let firstSet := findFirstSetU w v
    if firstSet ≠ 0 then (bIdx, bOff + (firstSet - 1 - bOff))
    else findFirstSetRangeGo w blocks eIdx eOff k (bIdx + 1) 0

/-- The ranged `folly::findFirstSet(begin, end)` over blocks of width
`w`. -/
def findFirstSetRange (w : Nat) (blocks : List Nat) (b e : Nat × Nat) :
    Nat × Nat :=
  findFirstSetRangeGo w blocks e.1 e.2 (e.1 - b.1) b.1 b.2

/-- `Endian::big` on a signed type of width `w` (pattern-level
operation, result reinterpreted). -/
def bigS (isLittle : Bool) (w : Nat) (x : Int) : Int :=
  toSigned w (Endian.big isLittle w (toPattern w x))

/-- `Endian::little` on a signed type of width `w`. -/
def littleS (isLittle : Bool) (w : Nat) (x : Int) : Int :=
  toSigned w (Endian.little isLittle w (toPattern w x))

/-! ## Theorems -/

theorem ffs_zero : ffs 0 = 0 := by
  rw [ffs]
  simp

theorem ffs_spec (x : Nat) (h : x ≠ 0) :
    1 ≤ ffs x ∧ x.testBit (ffs x - 1) = true ∧
      ∀ j < ffs x - 1, x.testBit j = false := by
  induction x using Nat.strong_induction_on with
  | _ x ih =>
    rw [ffs, dif_neg h]
    by_cases h2 : x % 2 = 1
    · rw [if_pos h2]
      refine ⟨le_refl 1, ?_, by omega⟩
      simpa using h2
    · rw [if_neg h2]
      have hx2 : x / 2 ≠ 0 := by omega
      obtain ⟨ih1, ih2, ih3⟩ := ih (x / 2) (Nat.div_lt_self (Nat.pos_of_ne_zero h) one_lt_two) hx2
      obtain ⟨r, hr⟩ : ∃ r, ffs (x / 2) = r + 1 := ⟨ffs (x / 2) - 1, by omega⟩
      rw [hr] at ih2 ih3
      simp only [Nat.add_sub_cancel] at ih2 ih3
      refine ⟨by omega, ?_, ?_⟩
      · have : ffs (x / 2) + 1 - 1 = r + 1 := by omega
        rw [this, Nat.testBit_succ]
        exact ih2
      · intro j hj
        rcases j with _ | j'
        · simp only [Nat.testBit_zero]
          simp only [decide_eq_false_iff_not]
          omega
        · rw [Nat.testBit_succ]
          exact ih3 j' (by omega)

theorem ffs_pos {x : Nat} (h : x ≠ 0) : 1 ≤ ffs x :=
  (ffs_spec x h).1

theorem ffs_eq_zero_iff {x : Nat} : ffs x = 0 ↔ x = 0 := by
  constructor
  · intro h
    by_contra hx
    have := ffs_pos hx
    omega
  · intro h; rw [h, ffs_zero]

/-- `ffs` is determined by the least set bit: if bit `i` is set and all
lower bits are clear then `ffs x = i + 1`. -/
theorem ffs_unique {x i : Nat} (hset : x.testBit i = true)
    (hlow : ∀ j < i, x.testBit j = false) : ffs x = i + 1 := by
  have hx : x ≠ 0 := by
    intro h
    rw [h] at hset
    simp at hset
  obtain ⟨h1, h2, h3⟩ := ffs_spec x hx
  rcases lt_trichotomy (ffs x - 1) i with hlt | heq | hgt
  · have := hlow (ffs x - 1) hlt
    rw [this] at h2
    exact absurd h2 (by simp)
  · omega
  · have := h3 i hgt
    rw [this] at hset
    exact absurd hset (by simp)

theorem ffs_le_of_lt {x w : Nat} (hx : x ≠ 0) (hw : x < 2 ^ w) : ffs x ≤ w := by
  obtain ⟨h1, h2, _⟩ := ffs_spec x hx
  have hge : 2 ^ (ffs x - 1) ≤ x := Nat.testBit_implies_ge h2
  have : ffs x - 1 < w := by
    by_contra hc
    have : 2 ^ w ≤ 2 ^ (ffs x - 1) := Nat.pow_le_pow_right (by omega) (by omega)
    omega
  omega

/-- `ffs` only looks at bits up to and including the least set bit: two
numbers congruent modulo `2 ^ w` have the same `ffs` when the common
residue is nonzero. -/
theorem ffs_congr {a w b : Nat} (hab : a % 2 ^ w = b) (hb : b ≠ 0) :
    ffs a = ffs b := by
  have hblt : b < 2 ^ w := hab ▸ Nat.mod_lt a (Nat.two_pow_pos w)
  obtain ⟨h1, h2, h3⟩ := ffs_spec b hb
  have hiw : ffs b - 1 < w := by
    have hge : 2 ^ (ffs b - 1) ≤ b := Nat.testBit_implies_ge h2
    by_contra hc
    have : 2 ^ w ≤ 2 ^ (ffs b - 1) := Nat.pow_le_pow_right (by omega) (by omega)
    omega
  have hset : a.testBit (ffs b - 1) = true := by
    have := Nat.testBit_mod_two_pow a w (ffs b - 1)
    rw [hab] at this
    rw [this] at h2
    simpa [hiw] using h2
  have hlow : ∀ j < ffs b - 1, a.testBit j = false := by
    intro j hj
    have hjw : j < w := by omega
    have := Nat.testBit_mod_two_pow a w j
    rw [hab] at this
    have hbj := h3 j hj
    rw [hbj] at this
    simpa [hjw] using this.symm
  have := ffs_unique hset hlow
  omega

theorem toPattern_lt (w : Nat) (x : Int) : toPattern w x < 2 ^ w := by
  unfold toPattern
  have h1 : (0 : Int) ≤ x % (2 ^ w : Int) :=
    Int.emod_nonneg x (by positivity)
  have h2 : x % (2 ^ w : Int) < (2 ^ w : Int) :=
    Int.emod_lt_of_pos x (by positivity)
  have : ((2 : Int) ^ w) = ((2 ^ w : Nat) : Int) := by push_cast; ring
  omega

theorem toPattern_toSigned {w p : Nat} (hp : p < 2 ^ w) :
    toPattern w (toSigned w p) = p := by
  unfold toPattern toSigned
  have hcast : ((2 : Int) ^ w) = ((2 ^ w : Nat) : Int) := by push_cast; ring
  by_cases h : p < 2 ^ (w - 1)
  · rw [if_pos h]
    rw [Int.emod_eq_of_lt (by positivity) (by rw [hcast]; exact_mod_cast hp)]
    exact Int.toNat_natCast p
  · rw [if_neg h]
    have hsub : ((p : Int) - 2 ^ w) % 2 ^ w = (p : Int) % 2 ^ w := by
      rw [Int.sub_emod, Int.emod_self, sub_zero, Int.emod_emod_of_dvd _ dvd_rfl]
    rw [hsub]
    rw [Int.emod_eq_of_lt (by positivity) (by rw [hcast]; exact_mod_cast hp)]
    exact Int.toNat_natCast p

theorem toSigned_range {w p : Nat} (hw : 1 ≤ w) (hp : p < 2 ^ w) :
    -(2 ^ (w - 1) : Int) ≤ toSigned w p ∧ toSigned w p < 2 ^ (w - 1) := by
  unfold toSigned
  have hsplit : (2 : Int) ^ w = 2 ^ (w - 1) * 2 := by
    rw [← pow_succ]
    congr 1
    omega
  have hcast : ((2 : Int) ^ (w - 1)) = ((2 ^ (w - 1) : Nat) : Int) := by push_cast; ring
  by_cases h : p < 2 ^ (w - 1)
  · rw [if_pos h]
    constructor
    · have : (0 : Int) ≤ p := Int.natCast_nonneg p
      have : (0 : Int) ≤ 2 ^ (w - 1) := by positivity
      omega
    · rw [hcast]; exact_mod_cast h
  · rw [if_neg h]
    have h1 : ((2 ^ (w - 1) : Nat) : Int) ≤ (p : Int) := by exact_mod_cast Nat.le_of_not_lt h
    have h2 : (p : Int) < ((2 ^ w : Nat) : Int) := by exact_mod_cast hp
    have hcw : ((2 : Int) ^ w) = ((2 ^ w : Nat) : Int) := by push_cast; ring
    rw [← hcast] at h1
    rw [← hcw] at h2
    constructor <;> omega

/-- Widening then truncating a pattern: the low `w` bits of the `W`-bit
pattern of `x` (`w ≤ W`) form the `w`-bit pattern of `x`. -/
theorem toPattern_mod {w W : Nat} (hwW : w ≤ W) (x : Int) :
    toPattern W x % 2 ^ w = toPattern w x := by
  unfold toPattern
  have hdvd : ((2 : Int) ^ w) ∣ ((2 : Int) ^ W) := pow_dvd_pow 2 hwW
  have hmod : (x % (2 ^ W : Int)) % (2 ^ w : Int) = x % (2 ^ w : Int) :=
    Int.emod_emod_of_dvd x hdvd
  have h0 : (0 : Int) ≤ x % (2 ^ W : Int) := Int.emod_nonneg x (by positivity)
  have hcast : ((2 : Int) ^ w) = ((2 ^ w : Nat) : Int) := by push_cast; ring
  obtain ⟨n, hn⟩ : ∃ n : Nat, x % (2 ^ W : Int) = (n : Int) :=
    ⟨(x % (2 ^ W : Int)).toNat, (Int.toNat_of_nonneg h0).symm⟩
  rw [hn] at hmod ⊢
  rw [← hmod, hcast]
  norm_cast

/-- On in-range patterns the unsigned `findFirstSet` agrees with glibc
`ffs` applied directly to the pattern. -/
theorem findFirstSetU_eq_ffs {w v : Nat}
    (hw : w = 8 ∨ w = 16 ∨ w = 32 ∨ w = 64) (hv : v < 2 ^ w) :
    findFirstSetU w v = ffs v := by
  unfold findFirstSetU findFirstSetS
  by_cases hz : v = 0
  · subst hz
    have h0 : toSigned w 0 = 0 := by
      unfold toSigned
      rw [if_pos (by positivity)]
      simp
    rw [h0]
    have : ∀ W : Nat, toPattern W 0 = 0 := by
      intro W
      unfold toPattern
      simp
    rw [this, this, ffs_zero]
    simp
  · have key : ∀ W : Nat, w ≤ W → ffs (toPattern W (toSigned w v)) = ffs v := by
      intro W hwW
      exact @ffs_congr (toPattern W (toSigned w v)) w v
        (by rw [toPattern_mod hwW, toPattern_toSigned hv]) hz
    by_cases h32 : w ≤ 32
    · rw [if_pos h32, key 32 h32]
    · rw [if_neg h32, key 64 (by omega)]

theorem log2_lt_of_lt_pow {x w : Nat} (hx : x ≠ 0) (hlt : x < 2 ^ w) :
    Nat.log2 x < w := by
  rw [Nat.log2_eq_log_two]
  exact Nat.log_lt_of_lt_pow hx hlt

theorem pow_log2_le {x : Nat} (hx : x ≠ 0) : 2 ^ Nat.log2 x ≤ x := by
  rw [Nat.log2_eq_log_two]
  exact Nat.pow_log_le_self 2 hx

theorem lt_pow_log2_succ (x : Nat) : x < 2 ^ (Nat.log2 x + 1) := by
  rw [Nat.log2_eq_log_two]
  exact Nat.lt_pow_succ_log_self one_lt_two x

theorem log2_eq_of_range {k x : Nat} (h1 : 2 ^ k ≤ x) (h2 : x < 2 ^ (k + 1)) :
    Nat.log2 x = k := by
  have h0 : 0 < 2 ^ k := Nat.two_pow_pos k
  have hx : x ≠ 0 := by omega
  have ha := pow_log2_le hx
  have hb := lt_pow_log2_succ x
  by_contra hne
  rcases Nat.lt_or_ge (Nat.log2 x) k with hlt | hge
  · have : 2 ^ (Nat.log2 x + 1) ≤ 2 ^ k :=
      Nat.pow_le_pow_right (by norm_num) (by omega)
    omega
  · have : 2 ^ (k + 1) ≤ 2 ^ Nat.log2 x :=
      Nat.pow_le_pow_right (by norm_num) (by omega)
    omega

theorem findLastSetU_eq_log2 {w x : Nat}
    (hw : w = 8 ∨ w = 16 ∨ w = 32 ∨ w = 64) (hx : x ≠ 0) (hlt : x < 2 ^ w) :
    findLastSetU w x = Nat.log2 x + 1 := by
  unfold findLastSetU clz
  rw [if_neg hx]
  have hlog : Nat.log2 x < w := log2_lt_of_lt_pow hx hlt
  by_cases h32 : w ≤ 32
  · rw [if_pos h32]
    omega
  · rw [if_neg h32]
    omega

theorem flsPortableLoop_eq (x r : Nat) : flsPortableLoop x r = r + Nat.log2 x := by
  induction x using Nat.strong_induction_on generalizing r with
  | _ x ih =>
    rw [flsPortableLoop]
    by_cases h : x / 2 = 0
    · rw [if_pos h, Nat.log2]
      rw [if_neg (by omega)]
      omega
    · rw [if_neg h]
      rw [ih (x / 2) (Nat.div_lt_self (by omega) one_lt_two) (r + 1)]
      conv_rhs => rw [Nat.log2]
      rw [if_pos (by omega)]
      omega

theorem findLastSetPortable_eq (x : Nat) :
    findLastSetPortable x = if x = 0 then 0 else Nat.log2 x + 1 := by
  unfold findLastSetPortable
  rw [flsPortableLoop_eq]
  by_cases h : x = 0
  · rw [if_pos h, if_pos h, h]
    simp [Nat.log2]
  · rw [if_neg h, if_neg h]
    omega

theorem smearStep_lt {x n : Nat} (s : Nat) (hx : x < 2 ^ n) :
    smearStep s x < 2 ^ n := by
  unfold smearStep
  apply Nat.or_lt_two_pow hx
  calc x >>> s ≤ x := by
        rw [Nat.shiftRight_eq_div_pow]
        exact Nat.div_le_self x (2 ^ s)
    _ < 2 ^ n := hx

/-- Window propagation: if all bits of `x` in `[k-a, k]` are set, then
after `x |= x >> s` (with `s ≤ a + 1`) all bits in `[k-(a+s), k]` are
set. -/
theorem smearStep_window {k : Nat} (s a : Nat) {x : Nat} (hsa : s ≤ a + 1)
    (hx : ∀ j, k - a ≤ j → j ≤ k → x.testBit j = true) :
    ∀ j, k - (a + s) ≤ j → j ≤ k → (smearStep s x).testBit j = true := by
  intro j h1 h2
  unfold smearStep
  rw [Nat.testBit_lor]
  by_cases hcase : k - a ≤ j
  · rw [hx j hcase h2]
    simp
  · have hjs : x.testBit (s + j) = true := hx (s + j) (by omega) (by omega)
    rw [Nat.testBit_shiftRight, hjs]
    simp

theorem testBit_log2 {x : Nat} (hx : x ≠ 0) : x.testBit (Nat.log2 x) = true := by
  rw [Nat.testBit_to_div_mod]
  have h1 : 2 ^ Nat.log2 x ≤ x := pow_log2_le hx
  have h2 : x < 2 ^ (Nat.log2 x + 1) := lt_pow_log2_succ x
  rw [pow_succ] at h2
  have hd1 : 1 ≤ x / 2 ^ Nat.log2 x :=
    (Nat.one_le_div_iff (Nat.two_pow_pos _)).mpr h1
  have hd2 : x / 2 ^ Nat.log2 x < 2 :=
    Nat.div_lt_of_lt_mul h2
  simp only [decide_eq_true_eq]
  omega

/-- After the smearing steps, a nonzero `x` (with its top bit within the
smear window) becomes all-ones up to and including its top bit. -/
theorem smear_eq {x : Nat} (hx : x ≠ 0) (hk : Nat.log2 x ≤ 255) :
    smear x = 2 ^ (Nat.log2 x + 1) - 1 := by
  set k := Nat.log2 x with hkdef
  have hlt : x < 2 ^ (k + 1) := lt_pow_log2_succ x
  have hub : smear x < 2 ^ (k + 1) := by
    unfold smear
    exact smearStep_lt _ (smearStep_lt _ (smearStep_lt _ (smearStep_lt _
      (smearStep_lt _ (smearStep_lt _ (smearStep_lt _ (smearStep_lt _ hlt)))))))
  have h0 : ∀ j, k - 0 ≤ j → j ≤ k → x.testBit j = true := by
    intro j hj1 hj2
    have : j = k := by omega
    rw [this, hkdef]
    exact testBit_log2 hx
  have h1 := smearStep_window 1 0 (by omega) h0
  have h2 := smearStep_window 2 1 (by omega) h1
  have h3 := smearStep_window 4 3 (by omega) h2
  have h4 := smearStep_window 8 7 (by omega) h3
  have h5 := smearStep_window 16 15 (by omega) h4
  have h6 := smearStep_window 32 31 (by omega) h5
  have h7 := smearStep_window 64 63 (by omega) h6
  have h8 := smearStep_window 128 127 (by omega) h7
  unfold smear at hub ⊢
  apply Nat.eq_of_testBit_eq
  intro j
  rw [Nat.testBit_two_pow_sub_one]
  by_cases hj : j ≤ k
  · rw [h8 j (by omega) hj]
    simp
    omega
  · rw [Nat.testBit_eq_false_of_lt
      (lt_of_lt_of_le hub (Nat.pow_le_pow_right (by omega) (by omega)))]
    simp
    omega

theorem smear_zero : smear 0 = 0 := by
  simp [smear, smearStep]

theorem findLastSetU_zero (w : Nat) : findLastSetU w 0 = 0 := by
  unfold findLastSetU
  simp

/-- The fast bit-scan path and the portable bit-smearing path of
`nextPowTwo` agree bit for bit on every in-range input. -/
theorem nextPowTwo_eq_portable {w : Nat}
    (hw : w = 8 ∨ w = 16 ∨ w = 32 ∨ w = 64) {v : Nat} (hv : v < 2 ^ w) :
    nextPowTwo w v = nextPowTwoPortable w v := by
  unfold nextPowTwo nextPowTwoPortable
  by_cases h0 : v = 0
  · rw [if_pos h0, if_pos h0]
  · rw [if_neg h0, if_neg h0]
    have hw1 : 1 < 2 ^ w := by
      have : (1 : Nat) < 2 ^ 8 := by norm_num
      rcases hw with h | h | h | h <;> rw [h] <;> norm_num
    by_cases h1 : v - 1 = 0
    · rw [h1, findLastSetU_zero, smear_zero]
      rw [Nat.shiftLeft_eq, one_mul, pow_zero]
      have e1 : (1 : Nat) % 2 ^ 64 = 1 := Nat.mod_eq_of_lt (by norm_num)
      rw [e1]
    · have hu : v - 1 < 2 ^ w := by omega
      have hfls : findLastSetU w (v - 1) = Nat.log2 (v - 1) + 1 :=
        findLastSetU_eq_log2 hw h1 hu
      have hlog : Nat.log2 (v - 1) < w := log2_lt_of_lt_pow h1 hu
      have hsm : smear (v - 1) = 2 ^ (Nat.log2 (v - 1) + 1) - 1 :=
        smear_eq h1 (by rcases hw with h | h | h | h <;> omega)
      rw [hfls, hsm]
      have hpos : 1 ≤ 2 ^ (Nat.log2 (v - 1) + 1) := Nat.one_le_two_pow
      rw [Nat.sub_add_cancel hpos, Nat.shiftLeft_eq, one_mul]
      exact Nat.mod_mod_of_dvd _
        (pow_dvd_pow 2 (by rcases hw with h | h | h | h <;> omega))

theorem byteReverse_lt (n : Nat) (x : Nat) : byteReverse n x < 2 ^ (8 * n) := by
  induction n generalizing x with
  | zero => simp [byteReverse]
  | succ n ih =>
    show x % 256 * 2 ^ (8 * n) + byteReverse n (x / 256) < 2 ^ (8 * (n + 1))
    have h1 : x % 256 ≤ 255 := by omega
    have h2 : byteReverse n (x / 256) < 2 ^ (8 * n) := ih (x / 256)
    have hsplit : 2 ^ (8 * (n + 1)) = 2 ^ (8 * n) * 256 := by
      rw [show 8 * (n + 1) = 8 * n + 8 by ring, pow_add]
      norm_num
    calc x % 256 * 2 ^ (8 * n) + byteReverse n (x / 256)
        ≤ 255 * 2 ^ (8 * n) + byteReverse n (x / 256) :=
          Nat.add_le_add_right (Nat.mul_le_mul_right _ h1) _
      _ < 255 * 2 ^ (8 * n) + 2 ^ (8 * n) := by omega
      _ = 2 ^ (8 * n) * 256 := by ring
      _ = 2 ^ (8 * (n + 1)) := hsplit.symm

/-- Byte-reversing a concatenation swaps the halves. -/
theorem byteReverse_append (n : Nat) :
    ∀ m a b, a < 2 ^ (8 * n) →
      byteReverse (n + m) (a + b * 2 ^ (8 * n)) =
        byteReverse m b + byteReverse n a * 2 ^ (8 * m) := by
  induction n with
  | zero =>
    intro m a b ha
    have : a = 0 := by simpa using ha
    subst this
    simp [byteReverse]
  | succ n ih =>
    intro m a b ha
    have hpow : 2 ^ (8 * (n + 1)) = 2 ^ (8 * n) * 256 := by
      rw [show 8 * (n + 1) = 8 * n + 8 by ring, pow_add]
      norm_num
    have harg : a + b * 2 ^ (8 * (n + 1)) = a + b * 2 ^ (8 * n) * 256 := by
      rw [hpow]
      ring
    have hstep : byteReverse (n + 1 + m) (a + b * 2 ^ (8 * (n + 1))) =
        (a + b * 2 ^ (8 * (n + 1))) % 256 * 2 ^ (8 * (n + m)) +
          byteReverse (n + m) ((a + b * 2 ^ (8 * (n + 1))) / 256) := by
      rw [show n + 1 + m = (n + m) + 1 by ring]
      rfl
    have hmod : (a + b * 2 ^ (8 * (n + 1))) % 256 = a % 256 := by
      rw [harg, Nat.add_mul_mod_self_right]
    have hdiv : (a + b * 2 ^ (8 * (n + 1))) / 256 = a / 256 + b * 2 ^ (8 * n) := by
      rw [harg, Nat.add_mul_div_right _ _ (by norm_num : (0 : Nat) < 256)]
    have hdivlt : a / 256 < 2 ^ (8 * n) := by
      apply Nat.div_lt_of_lt_mul
      rw [Nat.mul_comm 256 (2 ^ (8 * n)), ← hpow]
      exact ha
    rw [hstep, hmod, hdiv, ih m (a / 256) b hdivlt]
    show a % 256 * 2 ^ (8 * (n + m)) +
        (byteReverse m b + byteReverse n (a / 256) * 2 ^ (8 * m)) =
      byteReverse m b +
        (a % 256 * 2 ^ (8 * n) + byteReverse n (a / 256)) * 2 ^ (8 * m)
    have hnm : 2 ^ (8 * (n + m)) = 2 ^ (8 * n) * 2 ^ (8 * m) := by
      rw [show 8 * (n + m) = 8 * n + 8 * m by ring, pow_add]
    rw [hnm]
    ring

theorem byteReverse_involutive (n : Nat) :
    ∀ x, x < 2 ^ (8 * n) → byteReverse n (byteReverse n x) = x := by
  induction n with
  | zero =>
    intro x hx
    have : x = 0 := by simpa using hx
    subst this
    rfl
  | succ n ih =>
    intro x hx
    have hpow : 2 ^ (8 * (n + 1)) = 2 ^ (8 * n) * 256 := by
      rw [show 8 * (n + 1) = 8 * n + 8 by ring, pow_add]
      norm_num
    have hxdiv : x / 256 < 2 ^ (8 * n) := by
      apply Nat.div_lt_of_lt_mul
      rw [Nat.mul_comm 256 (2 ^ (8 * n)), ← hpow]
      exact hx
    have hstep : byteReverse (n + 1) x =
        byteReverse n (x / 256) + x % 256 * 2 ^ (8 * n) := by
      show x % 256 * 2 ^ (8 * n) + byteReverse n (x / 256) =
        byteReverse n (x / 256) + x % 256 * 2 ^ (8 * n)
      ring
    rw [hstep,
      byteReverse_append n 1 (byteReverse n (x / 256)) (x % 256)
        (byteReverse_lt n (x / 256))]
    have h1 : byteReverse 1 (x % 256) = x % 256 := by
      show x % 256 % 256 * 2 ^ (8 * 0) + byteReverse 0 (x % 256 / 256) = x % 256
      simp [byteReverse]
    rw [h1, ih (x / 256) hxdiv]
    norm_num
    omega

theorem Endian_swap_lt {w x : Nat} (hw : w = 8 ∨ w = 16 ∨ w = 32 ∨ w = 64)
    (hx : x < 2 ^ w) : Endian.swap w x < 2 ^ w := by
  unfold Endian.swap
  rcases hw with h | h | h | h <;> subst h
  · simpa using hx
  · simpa using byteReverse_lt 2 x
  · simpa using byteReverse_lt 4 x
  · simpa using byteReverse_lt 8 x

theorem Endian_swap_swap {w x : Nat} (hw : w = 8 ∨ w = 16 ∨ w = 32 ∨ w = 64)
    (hx : x < 2 ^ w) : Endian.swap w (Endian.swap w x) = x := by
  unfold Endian.swap
  rcases hw with h | h | h | h <;> subst h
  · simp
  · simpa using byteReverse_involutive 2 x (by simpa using hx)
  · simpa using byteReverse_involutive 4 x (by simpa using hx)
  · simpa using byteReverse_involutive 8 x (by simpa using hx)

theorem toUnsigned64_of_range {x : Int} (h0 : 0 ≤ x) (h1 : x < 2 ^ 64) :
    toUnsigned64 x = x.toNat := by
  unfold toUnsigned64
  rw [Int.emod_eq_of_lt h0 h1]

/-- The low-bits mask `~((one << o) - 1)` of a `w`-bit block type,
i.e. `2 ^ w - 2 ^ o`, has exactly the bits `o ≤ j < w` set. -/
theorem maskLow_testBit {w o : Nat} (ho : o ≤ w) (j : Nat) :
    (2 ^ w - 2 ^ o).testBit j = (decide (o ≤ j) && decide (j < w)) := by
  have hrw : 2 ^ w - 2 ^ o = (2 ^ (w - o) - 1) <<< o := by
    rw [Nat.shiftLeft_eq, Nat.sub_mul, ← pow_add, Nat.sub_add_cancel ho, one_mul]
  rw [hrw, Nat.testBit_shiftLeft, Nat.testBit_two_pow_sub_one]
  by_cases h1 : o ≤ j
  · by_cases h2 : j < w
    · have d1 : j - o < w - o := by omega
      simp [h1, h2, d1]
    · have d1 : ¬(j - o < w - o) := by omega
      simp [h1, h2, d1]
  · simp [h1]

theorem block_div_mod {w : Nat} (bIdx : Nat) {r : Nat} (hw : 0 < w) (hr : r < w) :
    (bIdx * w + r) / w = bIdx ∧ (bIdx * w + r) % w = r := by
  constructor
  · rw [Nat.mul_comm bIdx w, Nat.mul_add_div hw, Nat.div_eq_of_lt hr]
    omega
  · rw [Nat.mul_comm bIdx w, Nat.mul_add_mod, Nat.mod_eq_of_lt hr]

theorem bitAt_block {w bIdx j : Nat} (blocks : List Nat) (hw : 0 < w)
    (hj : j < w) :
    bitAt w blocks (bIdx * w + j) = (blocks.getD bIdx 0).testBit j := by
  unfold bitAt
  obtain ⟨hd, hm⟩ := block_div_mod bIdx hw hj
  rw [hd, hm]

theorem getD_lt_of_forall {blocks : List Nat} {w i : Nat}
    (hb : ∀ blk ∈ blocks, blk < 2 ^ w) (hi : i < blocks.length) :
    blocks.getD i 0 < 2 ^ w := by
  rw [List.getD_eq_getElem?_getD, List.getElem?_eq_getElem hi]
  exact hb _ (List.getElem_mem hi)

/-- Full characterisation of the ranged findFirstSet loop: starting at
block `bIdx`, offset `bOff`, with `k` whole blocks between `bIdx` and
`end`'s block, the loop returns `end` when the range holds no set bit,
and the block/offset of the least set bit position otherwise. -/
theorem findFirstSetRangeGo_spec (w : Nat)
    (hw : w = 8 ∨ w = 16 ∨ w = 32 ∨ w = 64) (blocks : List Nat)
    (hblocks : ∀ blk ∈ blocks, blk < 2 ^ w) (eIdx eOff : Nat)
    (heOff : eOff < w) (heLen : eIdx ≤ blocks.length)
    (heDer : eOff ≠ 0 → eIdx < blocks.length) :
    ∀ k bIdx bOff, bIdx + k = eIdx → bOff < w →
      bIdx * w + bOff ≤ eIdx * w + eOff →
      ((∀ p, bIdx * w + bOff ≤ p → p < eIdx * w + eOff →
          bitAt w blocks p = false) →
        findFirstSetRangeGo w blocks eIdx eOff k bIdx bOff = (eIdx, eOff)) ∧
      (∀ p₀, bIdx * w + bOff ≤ p₀ → p₀ < eIdx * w + eOff →
        bitAt w blocks p₀ = true →
        (∀ q, bIdx * w + bOff ≤ q → q < p₀ → bitAt w blocks q = false) →
        findFirstSetRangeGo w blocks eIdx eOff k bIdx bOff =
          (p₀ / w, p₀ % w)) := by
  have hw0 : 0 < w := by rcases hw with h | h | h | h <;> omega
  intro k
  induction k with
  | zero =>
    intro bIdx bOff hsum hbOff hle
    have hbe : bIdx = eIdx := by omega
    subst hbe
    by_cases hz : eOff = 0
    · constructor
      · intro _
        simp only [findFirstSetRangeGo]
        simp [hz]
      · intro p₀ hp1 hp2 _ _
        omega
    · have hEd : bIdx < blocks.length := heDer hz
      set B := blocks.getD bIdx 0 with hBdef
      have hB : B < 2 ^ w := getD_lt_of_forall hblocks hEd
      set v := B &&& (2 ^ w - 2 ^ bOff) &&& (2 ^ eOff - 1) with hvdef
      have hv_bits : ∀ j, v.testBit j =
          (B.testBit j && (decide (bOff ≤ j) && decide (j < w)) &&
            decide (j < eOff)) := by
        intro j
        rw [hvdef, Nat.testBit_land, Nat.testBit_land,
          maskLow_testBit (by omega) j, Nat.testBit_two_pow_sub_one]
      have hm2 : 2 ^ eOff - 1 < 2 ^ w := by
        have h1 : (2 : Nat) ^ eOff ≤ 2 ^ w := Nat.pow_le_pow_right (by omega) (by omega)
        have h2 : (0 : Nat) < 2 ^ eOff := Nat.two_pow_pos eOff
        omega
      have hvlt : v < 2 ^ w := by
        rw [hvdef]
        exact Nat.and_lt_two_pow _ hm2
      constructor
      · intro hnone
        have hv0 : v = 0 := by
          apply Nat.eq_of_testBit_eq
          intro j
          rw [hv_bits j, Nat.zero_testBit]
          by_cases hc1 : bOff ≤ j
          · by_cases hc2 : j < eOff
            · have hjw : j < w := by omega
              have hq := hnone (bIdx * w + j) (by omega) (by omega)
              rw [bitAt_block blocks hw0 hjw, ← hBdef] at hq
              simp [hq]
            · simp [hc2]
          · simp [hc1]
        have hffs0 : findFirstSetU w v = 0 := by
          rw [hv0, findFirstSetU_eq_ffs hw (Nat.two_pow_pos w), ffs_zero]
        simp only [findFirstSetRangeGo]
        rw [if_pos hz]
        rw [← hBdef, ← hvdef, hffs0]
        rw [if_neg (by simp)]
      · intro p₀ hp1 hp2 hbit hmin
        have hj₀b : bOff ≤ p₀ - bIdx * w := by omega
        set j₀ := p₀ - bIdx * w with hj₀def
        have hj₀e : j₀ < eOff := by omega
        have hj₀w : j₀ < w := by omega
        have hp₀eq : p₀ = bIdx * w + j₀ := by omega
        have hdiv : p₀ / w = bIdx := by
          rw [hp₀eq]
          exact (block_div_mod bIdx hw0 hj₀w).1
        have hmodp : p₀ % w = j₀ := by
          rw [hp₀eq]
          exact (block_div_mod bIdx hw0 hj₀w).2
        have hBbit : B.testBit j₀ = true := by
          have hb2 := hbit
          unfold bitAt at hb2
          rw [hdiv, hmodp, ← hBdef] at hb2
          exact hb2
        have hvj₀ : v.testBit j₀ = true := by
          rw [hv_bits]
          simp [hBbit, hj₀b, hj₀e, hj₀w]
        have hvlow : ∀ j, j < j₀ → v.testBit j = false := by
          intro j hj
          rw [hv_bits]
          by_cases hc1 : bOff ≤ j
          · have hjw : j < w := by omega
            have hq := hmin (bIdx * w + j) (by omega) (by omega)
            rw [bitAt_block blocks hw0 hjw, ← hBdef] at hq
            simp [hq]
          · simp [hc1]
        have hffs : findFirstSetU w v = j₀ + 1 := by
          rw [findFirstSetU_eq_ffs hw hvlt]
          exact ffs_unique hvj₀ (fun j hj => hvlow j hj)
        simp only [findFirstSetRangeGo]
        rw [if_pos hz]
        rw [← hBdef, ← hvdef, hffs]
        rw [if_pos (by omega : j₀ + 1 ≠ 0)]
        rw [hdiv, hmodp]
        have heq2 : bOff + (j₀ + 1 - 1 - bOff) = j₀ := by omega
        rw [heq2]
  | succ k ih =>
    intro bIdx bOff hsum hbOff hle
    have hblt : bIdx < eIdx := by omega
    have hbLen : bIdx < blocks.length := by omega
    have hstep : bIdx * w + w ≤ eIdx * w := by
      have h1 : (bIdx + 1) * w ≤ eIdx * w :=
        Nat.mul_le_mul_right w (by omega)
      have h2 : (bIdx + 1) * w = bIdx * w + w := by ring
      omega
    set B := blocks.getD bIdx 0 with hBdef
    have hB : B < 2 ^ w := getD_lt_of_forall hblocks hbLen
    set v := B &&& (2 ^ w - 2 ^ bOff) with hvdef
    have hv_bits : ∀ j, v.testBit j =
        (B.testBit j && (decide (bOff ≤ j) && decide (j < w))) := by
      intro j
      rw [hvdef, Nat.testBit_land, maskLow_testBit (by omega) j]
    have hvlt : v < 2 ^ w := by
      rw [hvdef]
      have h1 : 0 < 2 ^ bOff := Nat.two_pow_pos bOff
      have h2 : 0 < 2 ^ w := Nat.two_pow_pos w
      exact Nat.and_lt_two_pow _ (by omega)
    have hvzero_of : (∀ j, bOff ≤ j → j < w → B.testBit j = false) →
        v = 0 := by
      intro hnb
      apply Nat.eq_of_testBit_eq
      intro j
      rw [hv_bits j, Nat.zero_testBit]
      by_cases hc1 : bOff ≤ j
      · by_cases hc2 : j < w
        · simp [hnb j hc1 hc2]
        · simp [hc2]
      · simp [hc1]
    constructor
    · intro hnone
      have hnb : ∀ j, bOff ≤ j → j < w → B.testBit j = false := by
        intro j h1 h2
        have hq := hnone (bIdx * w + j) (by omega) (by omega)
        rw [bitAt_block blocks hw0 h2, ← hBdef] at hq
        exact hq
      have hv0 : v = 0 := hvzero_of hnb
      have hffs0 : findFirstSetU w v = 0 := by
        rw [hv0, findFirstSetU_eq_ffs hw (Nat.two_pow_pos w), ffs_zero]
      simp only [findFirstSetRangeGo]
      rw [← hBdef, ← hvdef, hffs0]
      rw [if_neg (by simp)]
      refine (ih (bIdx + 1) 0 (by omega) hw0 ?_).1 ?_
      · have h2 : (bIdx + 1) * w = bIdx * w + w := by ring
        omega
      · intro p hp1 hp2
        have h2 : (bIdx + 1) * w = bIdx * w + w := by ring
        exact hnone p (by omega) hp2
    · intro p₀ hp1 hp2 hbit hmin
      have hsucc : (bIdx + 1) * w = bIdx * w + w := by ring
      by_cases hcase : p₀ < bIdx * w + w
      · have hj₀b : bOff ≤ p₀ - bIdx * w := by omega
        set j₀ := p₀ - bIdx * w with hj₀def
        have hj₀w : j₀ < w := by omega
        have hp₀eq : p₀ = bIdx * w + j₀ := by omega
        have hdiv : p₀ / w = bIdx := by
          rw [hp₀eq]
          exact (block_div_mod bIdx hw0 hj₀w).1
        have hmodp : p₀ % w = j₀ := by
          rw [hp₀eq]
          exact (block_div_mod bIdx hw0 hj₀w).2
        have hBbit : B.testBit j₀ = true := by
          have hb2 := hbit
          unfold bitAt at hb2
          rw [hdiv, hmodp, ← hBdef] at hb2
          exact hb2
        have hvj₀ : v.testBit j₀ = true := by
          rw [hv_bits]
          simp [hBbit, hj₀b, hj₀w]
        have hvlow : ∀ j, j < j₀ → v.testBit j = false := by
          intro j hj
          rw [hv_bits]
          by_cases hc1 : bOff ≤ j
          · have hjw : j < w := by omega
            have hq := hmin (bIdx * w + j) (by omega) (by omega)
            rw [bitAt_block blocks hw0 hjw, ← hBdef] at hq
            simp [hq]
          · simp [hc1]
        have hffs : findFirstSetU w v = j₀ + 1 := by
          rw [findFirstSetU_eq_ffs hw hvlt]
          exact ffs_unique hvj₀ (fun j hj => hvlow j hj)
        simp only [findFirstSetRangeGo]
        rw [← hBdef, ← hvdef, hffs]
        rw [if_pos (by omega : j₀ + 1 ≠ 0)]
        rw [hdiv, hmodp]
        have heq2 : bOff + (j₀ + 1 - 1 - bOff) = j₀ := by omega
        rw [heq2]
      · have hnb : ∀ j, bOff ≤ j → j < w → B.testBit j = false := by
          intro j h1 h2
          have hq := hmin (bIdx * w + j) (by omega) (by omega)
          rw [bitAt_block blocks hw0 h2, ← hBdef] at hq
          exact hq
        have hv0 : v = 0 := hvzero_of hnb
        have hffs0 : findFirstSetU w v = 0 := by
          rw [hv0, findFirstSetU_eq_ffs hw (Nat.two_pow_pos w), ffs_zero]
        simp only [findFirstSetRangeGo]
        rw [← hBdef, ← hvdef, hffs0]
        rw [if_neg (by simp)]
        refine (ih (bIdx + 1) 0 (by omega) hw0 (by omega)).2 p₀ (by omega)
          hp2 hbit ?_
        intro q hq1 hq2
        exact hmin q (by omega) hq2

theorem toPattern_of_nonneg {w : Nat} {x : Int} (h0 : 0 ≤ x)
    (h1 : x < 2 ^ w) : toPattern w x = x.toNat := by
  unfold toPattern
  rw [Int.emod_eq_of_lt h0 h1]

theorem toPattern_of_neg {w : Nat} {x : Int} (h0 : -(2 ^ w) ≤ x)
    (h1 : x < 0) : toPattern w x = (x + 2 ^ w).toNat := by
  unfold toPattern
  have hpow : (0 : Int) < 2 ^ w := by positivity
  have hmod : x % (2 ^ w : Int) = x + 2 ^ w := by
    calc x % (2 ^ w : Int) = (x + 2 ^ w) % 2 ^ w := (Int.add_emod_self).symm
      _ = x + 2 ^ w := Int.emod_eq_of_lt (by omega) (by omega)
  rw [hmod]

theorem toSigned_toPattern {w : Nat} (hw1 : 1 ≤ w) {x : Int}
    (h1 : -(2 ^ (w - 1)) ≤ x) (h2 : x < 2 ^ (w - 1)) :
    toSigned w (toPattern w x) = x := by
  have hsplit : (2 : Int) ^ w = 2 ^ (w - 1) * 2 := by
    rw [← pow_succ]
    congr 1
    omega
  have hhalf : (0 : Int) < 2 ^ (w - 1) := by positivity
  have hcast : ((2 : Int) ^ (w - 1)) = ((2 ^ (w - 1) : Nat) : Int) := by
    push_cast
    ring
  by_cases h0 : 0 ≤ x
  · rw [toPattern_of_nonneg h0 (by omega)]
    unfold toSigned
    rw [if_pos (by omega)]
    omega
  · rw [toPattern_of_neg (by omega) (by omega)]
    unfold toSigned
    rw [if_neg (by omega)]
    omega

theorem toPattern_ne_zero {w : Nat} (hw1 : 1 ≤ w) {x : Int}
    (h1 : -(2 ^ (w - 1)) ≤ x) (h2 : x < 2 ^ (w - 1)) (hx : x ≠ 0) :
    toPattern w x ≠ 0 := by
  have hsplit : (2 : Int) ^ w = 2 ^ (w - 1) * 2 := by
    rw [← pow_succ]
    congr 1
    omega
  have hhalf : (0 : Int) < 2 ^ (w - 1) := by positivity
  by_cases h0 : 0 ≤ x
  · rw [toPattern_of_nonneg h0 (by omega)]
    omega
  · rw [toPattern_of_neg (by omega) (by omega)]
    omega

theorem findFirstSetS_zero (w : Nat) : findFirstSetS w 0 = 0 := by
  unfold findFirstSetS
  have hp : ∀ W : Nat, toPattern W 0 = 0 := by
    intro W
    unfold toPattern
    simp
  rw [hp, hp, ffs_zero]
  simp

theorem findFirstSetS_eq_ffs {w : Nat}
    (hw : w = 8 ∨ w = 16 ∨ w = 32 ∨ w = 64) (x : Int)
    (hp : toPattern w x ≠ 0) : findFirstSetS w x = ffs (toPattern w x) := by
  unfold findFirstSetS
  by_cases h32 : w ≤ 32
  · rw [if_pos h32]
    exact ffs_congr (toPattern_mod h32 x) hp
  · rw [if_neg h32]
    exact ffs_congr (toPattern_mod (by rcases hw with h | h | h | h <;> omega) x) hp

/-- C1: for every integral value `x` of width `w ≤ 64` bits, signed or
unsigned, `findFirstSet(x)` is 0 when `x = 0`, and otherwise is the
1-based index of the least significant set bit of `x`'s own `w`-bit
pattern: it lies in `[1, w]`, the bit at position `findFirstSet(x) - 1`
is set, and all lower bits are clear; an unsigned input gives the same
answer as its bit pattern reinterpreted as the same-width signed
value. -/
theorem claim1_findFirstSet_correct (w : Nat)
    (hw : w = 8 ∨ w = 16 ∨ w = 32 ∨ w = 64) :
    (∀ x : Int, -(2 ^ (w - 1)) ≤ x → x < 2 ^ (w - 1) →
      ((x = 0 → findFirstSetS w x = 0) ∧
       (x ≠ 0 →
         1 ≤ findFirstSetS w x ∧ findFirstSetS w x ≤ w ∧
         (toPattern w x).testBit (findFirstSetS w x - 1) = true ∧
         ∀ j < findFirstSetS w x - 1, (toPattern w x).testBit j = false))) ∧
    (∀ u : Nat, u < 2 ^ w →
      (findFirstSetU w u = findFirstSetS w (toSigned w u) ∧
       (u = 0 → findFirstSetU w u = 0) ∧
       (u ≠ 0 →
         1 ≤ findFirstSetU w u ∧ findFirstSetU w u ≤ w ∧
         u.testBit (findFirstSetU w u - 1) = true ∧
         ∀ j < findFirstSetU w u - 1, u.testBit j = false))) := by
  have hw1 : 1 ≤ w := by rcases hw with h | h | h | h <;> omega
  constructor
  · intro x h1 h2
    constructor
    · intro hx0
      rw [hx0, findFirstSetS_zero]
    · intro hx
      have hp : toPattern w x ≠ 0 := toPattern_ne_zero hw1 h1 h2 hx
      rw [findFirstSetS_eq_ffs hw x hp]
      obtain ⟨hf1, hf2, hf3⟩ := ffs_spec (toPattern w x) hp
      exact ⟨hf1, ffs_le_of_lt hp (toPattern_lt w x), hf2, hf3⟩
  · intro u hu
    refine ⟨rfl, ?_, ?_⟩
    · intro hu0
      rw [hu0, findFirstSetU_eq_ffs hw (Nat.two_pow_pos w), ffs_zero]
    · intro hu0
      rw [findFirstSetU_eq_ffs hw hu]
      obtain ⟨hf1, hf2, hf3⟩ := ffs_spec u hu0
      exact ⟨hf1, ffs_le_of_lt hu0 hu, hf2, hf3⟩

/-- C1 witness: the claim evaluated at width 8, at the signed value -96
(bit pattern 0xA0, lowest set bit at position 5) and at the unsigned
value 12 (lowest set bit at position 2). -/
theorem claim1_findFirstSet_correct_witness :
    (1 ≤ findFirstSetS 8 (-96) ∧ findFirstSetS 8 (-96) ≤ 8 ∧
      (toPattern 8 (-96)).testBit (findFirstSetS 8 (-96) - 1) = true ∧
      ∀ j < findFirstSetS 8 (-96) - 1, (toPattern 8 (-96)).testBit j = false) ∧
    (1 ≤ findFirstSetU 8 12 ∧ findFirstSetU 8 12 ≤ 8 ∧
      (12 : Nat).testBit (findFirstSetU 8 12 - 1) = true ∧
      ∀ j < findFirstSetU 8 12 - 1, (12 : Nat).testBit j = false) :=
  ⟨((claim1_findFirstSet_correct 8 (Or.inl rfl)).1 (-96) (by norm_num)
      (by norm_num)).2 (by norm_num),
   ((claim1_findFirstSet_correct 8 (Or.inl rfl)).2 12 (by norm_num)).2.2
      (by norm_num)⟩

/-- C2: for every integral value of width `w ≤ 64` bits, `findLastSet`
returns 0 at 0, returns `1 + floor(log2 x)` at every nonzero unsigned
`x`, and on a signed argument returns `findLastSet` of the bit pattern
reinterpreted as the same-width unsigned type. -/
theorem claim2_findLastSet_correct (w : Nat)
    (hw : w = 8 ∨ w = 16 ∨ w = 32 ∨ w = 64) :
    (∀ x : Nat, x < 2 ^ w →
      ((x = 0 → findLastSetU w x = 0) ∧
       (x ≠ 0 → findLastSetU w x = Nat.log2 x + 1))) ∧
    (∀ s : Int, findLastSetS w s = findLastSetU w (toPattern w s)) := by
  refine ⟨?_, fun s => rfl⟩
  intro x hx
  exact ⟨fun h0 => by rw [h0, findLastSetU_zero],
    fun hx0 => findLastSetU_eq_log2 hw hx0 hx⟩

/-- C2 witness: width 16 at `x = 255` (`findLastSet = 8`) and `x = 256`
(`findLastSet = 9`), plus the zero case. -/
theorem claim2_findLastSet_correct_witness :
    findLastSetU 16 0 = 0 ∧
    findLastSetU 16 255 = Nat.log2 255 + 1 ∧
    findLastSetU 16 256 = Nat.log2 256 + 1 :=
  ⟨((claim2_findLastSet_correct 16 (Or.inr (Or.inl rfl))).1 0
      (by norm_num)).1 rfl,
   ((claim2_findLastSet_correct 16 (Or.inr (Or.inl rfl))).1 255
      (by norm_num)).2 (by norm_num),
   ((claim2_findLastSet_correct 16 (Or.inr (Or.inl rfl))).1 256
      (by norm_num)).2 (by norm_num)⟩

/-- C8 counterexample: the two paths do not agree on every input of
every supported width. At width 64 with `v = 2^63 + 1`,
`findLastSet(v - 1) = 64`, so the fast path executes `1ul << 64` —
undefined behavior, no defined value — while the portable fallback
returns 0. -/
theorem claim8_full_range_fails :
    nextPowTwoFast 64 (2 ^ 63 + 1) = none ∧
    nextPowTwoPortable 64 (2 ^ 63 + 1) = 0 := by
  have hlog : Nat.log2 (2 ^ 63) = 63 :=
    log2_eq_of_range (le_refl _) (by norm_num)
  have hsub : (2 : Nat) ^ 63 + 1 - 1 = 2 ^ 63 := by omega
  have hfls : findLastSetU 64 (2 ^ 63) = 64 := by
    rw [findLastSetU_eq_log2 (Or.inr (Or.inr (Or.inr rfl))) (by norm_num)
      (by norm_num), hlog]
  constructor
  · unfold nextPowTwoFast
    rw [if_neg (by norm_num), hsub, hfls]
    norm_num
  · unfold nextPowTwoPortable
    rw [if_neg (by norm_num), hsub, smear_eq (by norm_num) (by omega), hlog]
    have hone : 1 ≤ (2 : Nat) ^ 64 := Nat.one_le_two_pow
    rw [Nat.sub_add_cancel hone, Nat.mod_self]

/-- C8 (amended): wherever the fast path's shift is defined — every
`v` at widths 8/16/32, and `v ≤ 2^63` at width 64 — the fast bit-scan
path and the portable bit-smearing fallback return exactly the same
value, bit for bit. -/
theorem claim8_nextPowTwo_paths_agree_defined (w : Nat)
    (hw : w = 8 ∨ w = 16 ∨ w = 32 ∨ w = 64) (v : Nat) (hv : v < 2 ^ w)
    (hdef : w = 64 → v ≤ 2 ^ 63) :
    nextPowTwoFast w v = some (nextPowTwoPortable w v) := by
  by_cases hv0 : v = 0
  · subst hv0
    unfold nextPowTwoFast nextPowTwoPortable
    simp
  · have hu : v - 1 < 2 ^ w := by omega
    have hfls_lt : findLastSetU w (v - 1) < 64 := by
      by_cases h1 : v - 1 = 0
      · rw [h1, findLastSetU_zero]
        norm_num
      · rw [findLastSetU_eq_log2 hw h1 hu]
        rcases hw with h | h | h | h
        · have := log2_lt_of_lt_pow h1 (h ▸ hu)
          omega
        · have := log2_lt_of_lt_pow h1 (h ▸ hu)
          omega
        · have := log2_lt_of_lt_pow h1 (h ▸ hu)
          omega
        · have hv63 : v - 1 < 2 ^ 63 := by
            have h2p : 0 < 2 ^ 63 := Nat.two_pow_pos 63
            have := hdef h
            omega
          have := log2_lt_of_lt_pow h1 hv63
          omega
    have h := nextPowTwo_eq_portable hw hv
    unfold nextPowTwo at h
    rw [if_neg hv0] at h
    unfold nextPowTwoFast
    rw [if_neg hv0, if_pos hfls_lt, h]

/-- C8 witness: the defined-region agreement at width 8 on the
truncating input 200 (both paths wrap to 0) and at width 64 on the
largest in-contract input `2^63`. -/
theorem claim8_nextPowTwo_paths_agree_defined_witness :
    nextPowTwoFast 8 200 = some (nextPowTwoPortable 8 200) ∧
    nextPowTwoFast 64 (2 ^ 63) = some (nextPowTwoPortable 64 (2 ^ 63)) :=
  ⟨claim8_nextPowTwo_paths_agree_defined 8 (Or.inl rfl) 200 (by norm_num)
      (fun h => absurd h (by norm_num)),
   claim8_nextPowTwo_paths_agree_defined 64 (Or.inr (Or.inr (Or.inr rfl)))
      (2 ^ 63) (by norm_num) (fun _ => by norm_num)⟩

/-- C9: for every `uint64_t x`, the portable repeated-right-shift
fallback `detail::findLastSetPortable(x)` returns the same value as the
intrinsic-based `findLastSet(x)` — 0 at 0 and `1 + floor(log2 x)`
otherwise. (The non-`__GNUC__` dispatch itself contains a typo in the
source, see the claim record.) -/
theorem claim9_findLastSetPortable_agree (x : Nat) (hx : x < 2 ^ 64) :
    findLastSetPortable x = findLastSetU 64 x ∧
    findLastSetPortable x = if x = 0 then 0 else Nat.log2 x + 1 := by
  refine ⟨?_, findLastSetPortable_eq x⟩
  rw [findLastSetPortable_eq]
  by_cases h : x = 0
  · rw [if_pos h, h, findLastSetU_zero]
  · rw [if_neg h,
      findLastSetU_eq_log2 (Or.inr (Or.inr (Or.inr rfl))) h hx]

/-- C9 witness: the two paths agree at `x = 123456789`. -/
theorem claim9_findLastSetPortable_agree_witness :
    findLastSetPortable 123456789 = findLastSetU 64 123456789 :=
  (claim9_findLastSetPortable_agree 123456789 (by norm_num)).1

/-- C4: for every unsigned `v` whose smallest enclosing power of two is
representable in the `w`-bit type (`v ≤ 2 ^ (w-1)`), `nextPowTwo v` is
a power of two, is at least `v`, and no power of two lies strictly
between `v` and it; and the concrete values listed in the spec hold. -/
theorem claim4_nextPowTwo_correct (w : Nat)
    (hw : w = 8 ∨ w = 16 ∨ w = 32 ∨ w = 64) (v : Nat)
    (hv : v < 2 ^ w) (hrep : v ≤ 2 ^ (w - 1)) :
    (∃ k, nextPowTwo w v = 2 ^ k) ∧ v ≤ nextPowTwo w v ∧
    (∀ k, v < 2 ^ k → 2 ^ k < nextPowTwo w v → False) ∧
    nextPowTwo 32 0 = 1 ∧ nextPowTwo 32 1 = 1 ∧ nextPowTwo 32 5 = 8 ∧
    nextPowTwo 32 8 = 8 ∧ nextPowTwo 32 9 = 16 := by
  have hl4 : Nat.log2 4 = 2 := by simp [Nat.log2]
  have hl7 : Nat.log2 7 = 2 := by simp [Nat.log2]
  have hl8 : Nat.log2 8 = 3 := by simp [Nat.log2]
  have hconc : nextPowTwo 32 0 = 1 ∧ nextPowTwo 32 1 = 1 ∧
      nextPowTwo 32 5 = 8 ∧ nextPowTwo 32 8 = 8 ∧ nextPowTwo 32 9 = 16 := by
    refine ⟨?_, ?_, ?_, ?_, ?_⟩ <;>
      norm_num [nextPowTwo, findLastSetU, clz, hl4, hl7, hl8,
        Nat.shiftLeft_eq]
  have hw8 : 8 ≤ w := by rcases hw with h | h | h | h <;> omega
  have hw2 : 1 < 2 ^ w := Nat.one_lt_two_pow (by omega)
  by_cases hv0 : v = 0
  · have hval : nextPowTwo w v = 1 := by
      rw [hv0]
      unfold nextPowTwo
      simp
    refine ⟨⟨0, by rw [hval]; norm_num⟩, by omega, ?_, hconc.1, hconc.2.1,
      hconc.2.2.1, hconc.2.2.2.1, hconc.2.2.2.2⟩
    intro k hk1 hk2
    have : (1 : Nat) ≤ 2 ^ k := Nat.one_le_two_pow
    omega
  · by_cases hv1 : v = 1
    · have hval : nextPowTwo w v = 1 := by
        rw [hv1]
        unfold nextPowTwo
        rw [if_neg (by norm_num)]
        norm_num [findLastSetU_zero, Nat.shiftLeft_eq]
        omega
      refine ⟨⟨0, by rw [hval]; norm_num⟩, by omega, ?_, hconc.1, hconc.2.1,
        hconc.2.2.1, hconc.2.2.2.1, hconc.2.2.2.2⟩
      intro k hk1 hk2
      have : (1 : Nat) ≤ 2 ^ k := Nat.one_le_two_pow
      omega
    · have hu0 : v - 1 ≠ 0 := by omega
      have hhalf : 0 < 2 ^ (w - 1) := Nat.two_pow_pos (w - 1)
      have hult : v - 1 < 2 ^ (w - 1) := by omega
      have hlog : Nat.log2 (v - 1) < w - 1 := log2_lt_of_lt_pow hu0 hult
      have hfls : findLastSetU w (v - 1) = Nat.log2 (v - 1) + 1 :=
        findLastSetU_eq_log2 hw hu0 (by omega)
      have hew : Nat.log2 (v - 1) + 1 < w := by omega
      have hval : nextPowTwo w v = 2 ^ (Nat.log2 (v - 1) + 1) := by
        unfold nextPowTwo
        rw [if_neg hv0, hfls, Nat.shiftLeft_eq, one_mul]
        have h1 : (2 : Nat) ^ (Nat.log2 (v - 1) + 1) < 2 ^ w :=
          Nat.pow_lt_pow_right (by norm_num) hew
        have h2 : (2 : Nat) ^ w ≤ 2 ^ 64 :=
          Nat.pow_le_pow_right (by norm_num)
            (by rcases hw with h | h | h | h <;> omega)
        have h2p : (2 : Nat) ^ (Nat.log2 (v - 1) + 1) < 2 ^ 64 := by omega
        rw [Nat.mod_eq_of_lt h2p, Nat.mod_eq_of_lt h1]
      rw [hval]
      refine ⟨⟨Nat.log2 (v - 1) + 1, rfl⟩, ?_, ?_, hconc.1, hconc.2.1,
        hconc.2.2.1, hconc.2.2.2.1, hconc.2.2.2.2⟩
      · have := lt_pow_log2_succ (v - 1)
        omega
      · intro k hk1 hk2
        have hke : k < Nat.log2 (v - 1) + 1 :=
          (Nat.pow_lt_pow_iff_right (by norm_num)).mp hk2
        have h2k : 2 ^ k ≤ 2 ^ Nat.log2 (v - 1) :=
          Nat.pow_le_pow_right (by norm_num) (by omega)
        have hlow : 2 ^ Nat.log2 (v - 1) ≤ v - 1 := pow_log2_le hu0
        omega

/-- C4 witness: width 16, `v = 1000`: `nextPowTwo` returns a power of
two that is at least 1000 with no power of two strictly between. -/
theorem claim4_nextPowTwo_correct_witness :
    (∃ k, nextPowTwo 16 1000 = 2 ^ k) ∧ 1000 ≤ nextPowTwo 16 1000 ∧
    (∀ k, 1000 < 2 ^ k → 2 ^ k < nextPowTwo 16 1000 → False) :=
  have h := claim4_nextPowTwo_correct 16 (Or.inr (Or.inl rfl)) 1000
    (by norm_num) (by norm_num)
  ⟨h.1, h.2.1, h.2.2.1⟩

/-- C6: for every fixed-width integral value, `Endian::swap` is an
involution and the identity on 8-bit types, and on a little-endian host
`big` coincides with `swap` while `little` is the identity — with the
roles reversed on a big-endian host; the signed `swap` (acting on the
bit pattern) is likewise an involution. -/
theorem claim6_endian_swap (w : Nat)
    (hw : w = 8 ∨ w = 16 ∨ w = 32 ∨ w = 64) :
    (∀ x : Nat, x < 2 ^ w →
      (Endian.swap w (Endian.swap w x) = x ∧
       (w = 8 → Endian.swap w x = x) ∧
       (Endian.big true w x = Endian.swap w x ∧
        Endian.little true w x = x) ∧
       (Endian.big false w x = x ∧
        Endian.little false w x = Endian.swap w x))) ∧
    (∀ x : Int, -(2 ^ (w - 1)) ≤ x → x < 2 ^ (w - 1) →
      swapS w (swapS w x) = x) := by
  have hw1 : 1 ≤ w := by rcases hw with h | h | h | h <;> omega
  constructor
  · intro x hx
    refine ⟨Endian_swap_swap hw hx, ?_, ⟨rfl, rfl⟩, ⟨rfl, rfl⟩⟩
    intro h8
    subst h8
    unfold Endian.swap
    simp
  · intro x h1 h2
    have hp := toPattern_lt w x
    unfold swapS
    rw [toPattern_toSigned (Endian_swap_lt hw hp), Endian_swap_swap hw hp]
    exact toSigned_toPattern hw1 h1 h2

/-- C6 witness: the byte-order laws evaluated at width 32 on
0x12345678 and the signed involution at width 16 on -12345. -/
theorem claim6_endian_swap_witness :
    Endian.swap 32 (Endian.swap 32 305419896) = 305419896 ∧
    Endian.big true 32 305419896 = Endian.swap 32 305419896 ∧
    Endian.little true 32 305419896 = 305419896 ∧
    swapS 16 (swapS 16 (-12345)) = -12345 :=
  have h := (claim6_endian_swap 32 (Or.inr (Or.inr (Or.inl rfl)))).1
    305419896 (by norm_num)
  ⟨h.1, h.2.2.1.1, h.2.2.1.2,
    (claim6_endian_swap 16 (Or.inr (Or.inl rfl))).2 (-12345) (by norm_num)
      (by norm_num)⟩

/-- C10: on either host byte order, `Endian::big` and `Endian::little`
are involutions, and their composition in either order is the byte
swap; the same holds for the signed wrappers. -/
theorem claim10_endian_bigLittle (w : Nat)
    (hw : w = 8 ∨ w = 16 ∨ w = 32 ∨ w = 64) (isLittle : Bool) :
    (∀ x : Nat, x < 2 ^ w →
      (Endian.big isLittle w (Endian.big isLittle w x) = x ∧
       Endian.little isLittle w (Endian.little isLittle w x) = x ∧
       Endian.little isLittle w (Endian.big isLittle w x) =
         Endian.swap w x ∧
       Endian.big isLittle w (Endian.little isLittle w x) =
         Endian.swap w x)) ∧
    (∀ x : Int, -(2 ^ (w - 1)) ≤ x → x < 2 ^ (w - 1) →
      (bigS isLittle w (bigS isLittle w x) = x ∧
       littleS isLittle w (littleS isLittle w x) = x)) := by
  have hw1 : 1 ≤ w := by rcases hw with h | h | h | h <;> omega
  constructor
  · intro x hx
    cases isLittle
    · refine ⟨rfl, ?_, rfl, rfl⟩
      show Endian.swap w (Endian.swap w x) = x
      exact Endian_swap_swap hw hx
    · refine ⟨?_, rfl, ?_, ?_⟩
      · show Endian.swap w (Endian.swap w x) = x
        exact Endian_swap_swap hw hx
      · rfl
      · rfl
  · intro x h1 h2
    have hp := toPattern_lt w x
    cases isLittle
    · constructor
      · show toSigned w (toPattern w (toSigned w (toPattern w x))) = x
        rw [toPattern_toSigned hp]
        exact toSigned_toPattern hw1 h1 h2
      · show toSigned w (Endian.swap w
            (toPattern w (toSigned w (Endian.swap w (toPattern w x))))) = x
        rw [toPattern_toSigned (Endian_swap_lt hw hp),
          Endian_swap_swap hw hp]
        exact toSigned_toPattern hw1 h1 h2
    · constructor
      · show toSigned w (Endian.swap w
            (toPattern w (toSigned w (Endian.swap w (toPattern w x))))) = x
        rw [toPattern_toSigned (Endian_swap_lt hw hp),
          Endian_swap_swap hw hp]
        exact toSigned_toPattern hw1 h1 h2
      · show toSigned w (toPattern w (toSigned w (toPattern w x))) = x
        rw [toPattern_toSigned hp]
        exact toSigned_toPattern hw1 h1 h2

/-- C10 witness: the big/little laws evaluated at width 16 on 0xBEEF,
on both host byte orders. -/
theorem claim10_endian_bigLittle_witness :
    Endian.big true 16 (Endian.big true 16 48879) = 48879 ∧
    Endian.little true 16 (Endian.big true 16 48879) =
      Endian.swap 16 48879 ∧
    Endian.big false 16 (Endian.little false 16 48879) =
      Endian.swap 16 48879 :=
  have ht := (claim10_endian_bigLittle 16 (Or.inr (Or.inl rfl)) true).1
    48879 (by norm_num)
  have hf := (claim10_endian_bigLittle 16 (Or.inr (Or.inl rfl)) false).1
    48879 (by norm_num)
  ⟨ht.1, ht.2.2.1, hf.2.2.2⟩

/-- C7: every exposed BitIterator operation (construction at a valid
offset is the hypothesis, increment, decrement, advance,
advanceToNextBlock) preserves `0 ≤ bitOffset < bitsPerBlock`;
incrementing at the last bit of a block steps the base forward and
resets the offset to 0, and decrementing at offset 0 steps the base
back and sets the offset to `bitsPerBlock - 1`. -/
theorem claim7_bitIterator_invariant (w : Nat)
    (hw : w = 8 ∨ w = 16 ∨ w = 32 ∨ w = 64) (it : BitIterator)
    (hinv : 0 ≤ it.bitOffset ∧ it.bitOffset < (w : Int)) :
    (0 ≤ (increment w it).bitOffset ∧
      (increment w it).bitOffset < (w : Int)) ∧
    (0 ≤ (decrement w it).bitOffset ∧
      (decrement w it).bitOffset < (w : Int)) ∧
    (0 ≤ (advanceToNextBlock it).bitOffset ∧
      (advanceToNextBlock it).bitOffset < (w : Int)) ∧
    (∀ n : Int, 0 ≤ (advance w n it).bitOffset ∧
      (advance w n it).bitOffset < (w : Int)) ∧
    (it.bitOffset = (w : Int) - 1 → increment w it = ⟨it.base + 1, 0⟩) ∧
    (it.bitOffset = 0 → decrement w it = ⟨it.base - 1, (w : Int) - 1⟩) := by
  have hw0 : 0 < w := by rcases hw with h | h | h | h <;> omega
  have hwI : (1 : Int) ≤ (w : Int) := by exact_mod_cast hw0
  obtain ⟨hi1, hi2⟩ := hinv
  refine ⟨?_, ?_, ?_, ?_, ?_, ?_⟩
  · unfold increment
    by_cases h : it.bitOffset + 1 = (w : Int)
    · rw [if_pos h]
      constructor
      · show (0 : Int) ≤ 0
        omega
      · show (0 : Int) < (w : Int)
        omega
    · rw [if_neg h]
      constructor
      · show (0 : Int) ≤ it.bitOffset + 1
        omega
      · show it.bitOffset + 1 < (w : Int)
        omega
  · unfold decrement
    by_cases h : it.bitOffset = 0
    · rw [if_pos h]
      constructor
      · show (0 : Int) ≤ (w : Int) - 1
        omega
      · show (w : Int) - 1 < (w : Int)
        omega
    · rw [if_neg h]
      constructor
      · show (0 : Int) ≤ it.bitOffset - 1
        omega
      · show it.bitOffset - 1 < (w : Int)
        omega
  · constructor
    · show (0 : Int) ≤ 0
      omega
    · show (0 : Int) < (w : Int)
      omega
  · intro n
    have hr : toUnsigned64 n % w < w := Nat.mod_lt _ hw0
    have hrI : ((toUnsigned64 n % w : Nat) : Int) < (w : Int) := by
      exact_mod_cast hr
    have hr0 : (0 : Int) ≤ ((toUnsigned64 n % w : Nat) : Int) :=
      Int.natCast_nonneg _
    have hoff0 : 0 ≤ it.bitOffset + ((toUnsigned64 n % w : Nat) : Int) := by
      omega
    have hw64 : (w : Int) ≤ 64 := by
      rcases hw with h | h | h | h <;> simp [h]
    have h2p : (128 : Int) < 2 ^ 64 := by norm_num
    have hofflt : it.bitOffset + ((toUnsigned64 n % w : Nat) : Int) <
        2 ^ 64 := by omega
    have htU : toUnsigned64 (it.bitOffset +
        ((toUnsigned64 n % w : Nat) : Int)) =
        (it.bitOffset + ((toUnsigned64 n % w : Nat) : Int)).toNat :=
      toUnsigned64_of_range hoff0 hofflt
    have htN : ((it.bitOffset +
        ((toUnsigned64 n % w : Nat) : Int)).toNat : Int) =
        it.bitOffset + ((toUnsigned64 n % w : Nat) : Int) :=
      Int.toNat_of_nonneg hoff0
    simp only [advance]
    rw [htU]
    by_cases hc : w ≤ (it.bitOffset + ((toUnsigned64 n % w : Nat) : Int)).toNat
    · rw [if_pos hc]
      have hcI : (w : Int) ≤ it.bitOffset +
          ((toUnsigned64 n % w : Nat) : Int) := by omega
      constructor
      · show (0 : Int) ≤ it.bitOffset +
          ((toUnsigned64 n % w : Nat) : Int) - (w : Int)
        omega
      · show it.bitOffset + ((toUnsigned64 n % w : Nat) : Int) - (w : Int) <
          (w : Int)
        omega
    · rw [if_neg hc]
      have hcI : it.bitOffset + ((toUnsigned64 n % w : Nat) : Int) <
          (w : Int) := by omega
      constructor
      · show (0 : Int) ≤ it.bitOffset + ((toUnsigned64 n % w : Nat) : Int)
        omega
      · show it.bitOffset + ((toUnsigned64 n % w : Nat) : Int) < (w : Int)
        omega
  · intro h
    unfold increment
    rw [if_pos (by omega)]
  · intro h
    unfold decrement
    rw [if_pos h]

/-- C7 witness: at block width 8, the invariant and the two
block-crossing behaviours at the iterator (base 5, offset 7). -/
theorem claim7_bitIterator_invariant_witness :
    (0 ≤ (increment 8 ⟨5, 7⟩).bitOffset ∧
      (increment 8 ⟨5, 7⟩).bitOffset < (8 : Int)) ∧
    ((⟨5, 7⟩ : BitIterator).bitOffset = (8 : Int) - 1 →
      increment 8 ⟨5, 7⟩ = ⟨5 + 1, 0⟩) :=
  have h := claim7_bitIterator_invariant 8 (Or.inl rfl) ⟨5, 7⟩
    (by constructor <;> norm_num)
  ⟨h.1, h.2.2.2.2.1⟩

/-- C5 (code slip, fixed in later folly versions): `advance` divides
the signed `n` by the unsigned `bpb`, so the division is performed in
`size_t`; for a negative offset the quotient is off by `2^64 / w`
whole blocks. At 64-bit blocks, `advance(-64)` from (base 0, offset 0)
lands at base `2^58 - 1` instead of base `-1`, the result of 64 single
decrements. -/
theorem claim5_advance_negative_diverges :
    advance 64 (-64) ⟨0, 0⟩ = ⟨2 ^ 58 - 1, 0⟩ ∧
    (decrement 64)^[64] ⟨0, 0⟩ = ⟨-1, 0⟩ ∧
    advance 64 (-64) ⟨0, 0⟩ ≠ (decrement 64)^[64] ⟨0, 0⟩ := by
  refine ⟨by decide, by decide, by decide⟩

/-- C3: over a valid ordered bit range `[begin, end)` on in-range
blocks, the ranged `findFirstSet` returns the iterator of the lowest
set global bit position in the range, and returns `end` when no bit in
the range is set (including the empty range). -/
theorem claim3_findFirstSetRange_correct (w : Nat)
    (hw : w = 8 ∨ w = 16 ∨ w = 32 ∨ w = 64) (blocks : List Nat)
    (hblocks : ∀ blk ∈ blocks, blk < 2 ^ w) (b e : Nat × Nat)
    (hb2 : b.2 < w) (he2 : e.2 < w) (hbe : b.1 ≤ e.1)
    (hpos : b.1 * w + b.2 ≤ e.1 * w + e.2)
    (hlen : e.1 ≤ blocks.length) (hder : e.2 ≠ 0 → e.1 < blocks.length) :
    ((∀ p, b.1 * w + b.2 ≤ p → p < e.1 * w + e.2 →
        bitAt w blocks p = false) →
      findFirstSetRange w blocks b e = e) ∧
    (∀ p₀, b.1 * w + b.2 ≤ p₀ → p₀ < e.1 * w + e.2 →
      bitAt w blocks p₀ = true →
      (∀ q, b.1 * w + b.2 ≤ q → q < p₀ → bitAt w blocks q = false) →
      findFirstSetRange w blocks b e = (p₀ / w, p₀ % w)) := by
  have h := findFirstSetRangeGo_spec w hw blocks hblocks e.1 e.2 he2
    hlen hder (e.1 - b.1) b.1 b.2 (by omega) hb2 hpos
  unfold findFirstSetRange
  exact h

/-- C3 witness: width 8, blocks `[0, 16]`, range from (block 0, bit 1)
to (block 2, bit 0): the single set bit is global position 12 (block 1,
offset 4), and the function finds it; over `[0, 0]` with the same
range, no bit is set and `end` is returned. -/
theorem claim3_findFirstSetRange_correct_witness :
    findFirstSetRange 8 [0, 16] (0, 1) (2, 0) = (12 / 8, 12 % 8) ∧
    findFirstSetRange 8 [0, 0] (0, 1) (2, 0) = (2, 0) :=
  ⟨(claim3_findFirstSetRange_correct 8 (Or.inl rfl) [0, 16] (by decide)
      (0, 1) (2, 0) (by decide) (by decide) (by decide) (by decide)
      (by decide) (fun h => absurd rfl h)).2 12 (by decide) (by decide)
      (by decide)
      (fun q hq1 hq2 =>
        (by decide : ∀ q < 12, 1 ≤ q → bitAt 8 [0, 16] q = false)
          q hq2 hq1),
   (claim3_findFirstSetRange_correct 8 (Or.inl rfl) [0, 0] (by decide)
      (0, 1) (2, 0) (by decide) (by decide) (by decide) (by decide)
      (by decide) (fun h => absurd rfl h)).1
      (fun p hp1 hp2 =>
        (by decide : ∀ p < 16, 1 ≤ p → bitAt 8 [0, 0] p = false)
          p hp2 hp1)⟩

end Folly

